import Mathlib

/-!
Verification of the tumulus backup pipeline against its specification.

Shallow embedding of the relevant program parts:
* `extentria` crate: FIEMAP flag handling, the Linux fallback policy
  (`crates/extentria/src/fiemap.rs`, `crates/extentria/src/linux.rs`);
* the extent chunker (`crates/tumulus/src/extents.rs`);
* the tree hasher (`crates/tumulus/src/tree.rs`);
* the blob-layout codec (`crates/tumulus-server/src/blob.rs`);
* the extent store write path (`crates/tumulus-server/src/storage/fs.rs`,
  `crates/tumulus-server/src/api/extents.rs`, `api/error.rs`);
* the catalog upload session logic (`crates/tumulus-server/src/api/catalogs.rs`,
  `crates/tumulus-server/src/db.rs`).

Bytes are modelled as `List Nat` (each element a byte value); Rust `u64`/`usize`
arithmetic is modelled on `Nat` with explicit `% 2 ^ 64` where the source can
wrap in release mode.  BLAKE3 is abstracted as a parameter `H : Bytes → Bytes`:
the source only ever feeds bytes to a hasher and compares outputs, and the
incremental-hashing API is modelled by applying `H` to the concatenation of the
fed chunks.
-/

namespace Spec2Proof

/-- Byte strings (each entry is one byte value 0..255). -/
abbrev Bytes := List Nat

/-- Little-endian encoding of `n` on `w` bytes, as produced by Rust
`to_le_bytes` / `put_u64_le` (higher bits beyond `8*w` are discarded,
matching wrapping `as` casts). -/
def leBytes : Nat → Nat → List Nat
  | 0, _ => []
  | w + 1, n => n % 256 :: leBytes w (n / 256)

/-- Little-endian reading of a byte list, as done by Rust `get_u64_le`
(on the first 8 bytes of the remaining buffer). -/
def readLEList : List Nat → Nat
  | [] => 0
  | b :: bs => b + 256 * readLEList bs

/-- `2^64`, the modulus of 64-bit `usize` arithmetic (used where the source
performs unchecked `usize` additions and subtractions that wrap in release
builds). -/
def USIZE : Nat := 2 ^ 64

/-- Byte-lexicographic strict order on byte strings, the order Rust uses for
`&str` / byte-slice comparison (and hence for `BTreeMap<&str, _>` iteration). -/
def lexLt : List Nat → List Nat → Bool
  | [], [] => false
  | [], _ :: _ => true
  | _ :: _, [] => false
  | a :: as, b :: bs => if a < b then true else if b < a then false else lexLt as bs

/-! ## extentria: data ranges, FIEMAP flags, Linux fallback policy -/

namespace Extentria

/-- Linux errno values used by `is_fiemap_unsupported` and the spec. -/
def EOPNOTSUPP : Nat := 95

/-- Linux errno `ENOTTY`. -/
def ENOTTY : Nat := 25

/-- Linux errno `EINVAL`. -/
def EINVAL : Nat := 22

/-- Flags of a data range (from `extentria::types::RangeFlags`; the copy of
`types.rs` in the tree is a stale revision with a `hole` field, but
`lib.rs`, `linux.rs` and `tumulus::extents` all use the `RangeFlags`
form with `sparse` and `shared`, which is what is modelled here, matching
spec section 3). -/
structure RangeFlags where
  sparse : Bool
  shared : Bool
deriving DecidableEq, Repr

/-- One contiguous range of a file (`extentria::DataRange`). -/
structure DataRange where
  offset : Nat
  length : Nat
  flags : RangeFlags
deriving DecidableEq, Repr

/-- `DataRange::new(offset, length)`: a non-sparse, non-shared range. -/
def DataRange.new (offset length : Nat) : DataRange :=
  ⟨offset, length, ⟨false, false⟩⟩

/-- `DataRange::sparse(offset, length)`: a sparse hole range. -/
def DataRange.sparse (offset length : Nat) : DataRange :=
  ⟨offset, length, ⟨true, false⟩⟩

/-- `is_fiemap_unsupported` from `crates/extentria/src/linux.rs`: the errno
values for which `read_ranges` falls back instead of propagating the
error.  Note the source matches only `EOPNOTSUPP` and `ENOTTY`. -/
def is_fiemap_unsupported (errno : Nat) : Bool :=
  errno == EOPNOTSUPP || errno == ENOTTY

/-- `FallbackRangeIter::new(file_size)` collected: a single full-file
non-sparse range for non-empty files, nothing for empty files. -/
def fallbackRanges (file_size : Nat) : List DataRange :=
  if file_size > 0 then [DataRange.new 0 file_size] else []

/-- The error branch of `RangeReader::read_ranges` (linux.rs lines 61-74):
when the initial FIEMAP ioctl fails with `errno`, either fall back to the
single-range iterator or propagate the error. -/
def read_ranges_after_fiemap_error (errno : Nat) (file_size : Nat) :
    Except Nat (List DataRange) :=
  if is_fiemap_unsupported errno then .ok (fallbackRanges file_size) else .error errno

/-- `FIEMAP_EXTENT_LAST` (linux uapi value 0x1). -/
def FIEMAP_EXTENT_LAST : Nat := 0x1

/-- `FIEMAP_EXTENT_SHARED` (linux uapi value 0x2000). -/
def FIEMAP_EXTENT_SHARED : Nat := 0x2000

/-- One FIEMAP extent record (`extentria::fiemap::FiemapExtent`, reserved
fields omitted). -/
structure FiemapExtent where
  logical_offset : Nat
  physical_offset : Nat
  length : Nat
  flags : Nat
deriving DecidableEq, Repr

/-- `FiemapExtent::last()` exactly as written in fiemap.rs:
`self.flags & FIEMAP_EXTENT_LAST == 1`. -/
def FiemapExtent.last (e : FiemapExtent) : Bool :=
  (e.flags &&& FIEMAP_EXTENT_LAST) == 1

/-- `FiemapExtent::shared()` exactly as written in fiemap.rs:
`self.flags & FIEMAP_EXTENT_SHARED == 1` (note: `== 1`, not `!= 0`). -/
def FiemapExtent.shared (e : FiemapExtent) : Bool :=
  (e.flags &&& FIEMAP_EXTENT_SHARED) == 1

/-- The translation of one FIEMAP record into a `DataRange` performed by
`FiemapRangeIter::next` (linux.rs lines 162-195): a non-sparse range whose
`shared` flag is `extent.shared()`. -/
def dataRangeOfExtent (e : FiemapExtent) : DataRange :=
  ⟨e.logical_offset, e.length, ⟨false, e.shared⟩⟩

end Extentria

/-! ## tumulus: extent chunker (`crates/tumulus/src/extents.rs`) -/

namespace Chunker

open Extentria

/-- `MAX_EXTENT_SIZE`: maximum size of a single extent chunk (128 KiB). -/
def MAX_EXTENT_SIZE : Nat := 128 * 1024

/-- `tumulus::extents::ExtentInfo`. -/
structure ExtentInfo where
  extent_id : Bytes
  offset : Nat
  bytes : Nat
  is_sparse : Bool
  is_shared : Bool
  fs_extent : Nat
deriving DecidableEq, Repr

/-- The byte slice `&mmap[s..e]` of a memory-mapped file modelled as a list. -/
def slice (mmap : Bytes) (s e : Nat) : Bytes :=
  (mmap.take e).drop s

/-- The subchunking loop of `range_to_extent_infos` (extents.rs lines
136-167): starting at buffer index `chunk_start` and file offset
`chunk_offset`, cut chunks of at most `MAX_EXTENT_SIZE` bytes until
`e` is reached, hashing each chunk. -/
def subchunks (H : Bytes → Bytes) (mmap : Bytes) (sh : Bool) (fs : Nat)
    (chunk_start chunk_offset e : Nat) : List ExtentInfo :=
  if h : chunk_start < e then
    let chunk_end := min (chunk_start + MAX_EXTENT_SIZE) e
    { extent_id := H (slice mmap chunk_start chunk_end),
      offset := chunk_offset,
      bytes := chunk_end - chunk_start,
      is_sparse := false,
      is_shared := sh,
      fs_extent := fs } ::
      subchunks H mmap sh fs chunk_end (chunk_offset + (chunk_end - chunk_start)) e
  else []
termination_by e - chunk_start
decreasing_by
  have hM : 0 < MAX_EXTENT_SIZE := by decide
  omega

/-- `range_to_extent_infos(range, mmap, fs_extent)` from extents.rs lines
99-168: sparse ranges give a single all-zero-id entry; non-sparse ranges
are clamped to the map length, hashed whole when at most 128 KiB, else
subchunked.

The source computes `let end = (start + range.length as usize).min(mmap.len())`
and `let total_len = (end - start) as u64` with unchecked `usize` arithmetic:
in release builds both the addition and the subtraction wrap modulo `2^64`
(modelled explicitly below; debug builds panic on the overflowing addition
instead).  When the addition wraps, `end` falls below `start`, the wrapped
`total_len` is huge, and the subchunk loop (`while chunk_start < end`) exits
immediately, so the function returns no extents.  (The single-chunk branch
can only be reached with `end < start` when `mmap.len() ≥ 2^64 - 131072`,
which no actual memory mapping can satisfy; there the source would panic on
the reversed slice bounds while this model yields an empty slice — outside
that physically impossible corner the model follows release behaviour
exactly.) -/
def range_to_extent_infos (H : Bytes → Bytes) (range : DataRange) (mmap : Bytes)
    (fs_extent : Nat) : List ExtentInfo :=
  if range.flags.sparse then
    [{ extent_id := List.replicate 32 0,
       offset := range.offset,
       bytes := range.length,
       is_sparse := true,
       is_shared := false,
       fs_extent := fs_extent }]
  else
    let start := min range.offset mmap.length
    let e := min ((start + range.length) % USIZE) mmap.length
    let total_len := (e + USIZE - start) % USIZE
    if total_len = 0 then []
    else if total_len ≤ MAX_EXTENT_SIZE then
      [{ extent_id := H (slice mmap start e),
         offset := range.offset,
         bytes := total_len,
         is_sparse := false,
         is_shared := range.flags.shared,
         fs_extent := fs_extent }]
    else
      subchunks H mmap range.flags.shared fs_extent start range.offset e

/-- Number of chunks produced for `total` bytes: `⌈total / MAX⌉`
(specification-side quantity for the chunking claim). -/
def chunkCount (total : Nat) : Nat :=
  (total + MAX_EXTENT_SIZE - 1) / MAX_EXTENT_SIZE

/-- Specification-side chunk list: consecutive chunks of exactly
`MAX_EXTENT_SIZE` bytes (last possibly shorter) starting at buffer index
`s` / file offset `off`, one hashed entry per chunk, all with the same
`fs_extent`.  This is the claim's description, to be compared with the
source's loop. -/
def specChunks (H : Bytes → Bytes) (mmap : Bytes) (sh : Bool) (fs : Nat)
    (off s e : Nat) : List ExtentInfo :=
  (List.range (chunkCount (e - s))).map fun i =>
    { extent_id := H (slice mmap (s + i * MAX_EXTENT_SIZE)
        (min (s + i * MAX_EXTENT_SIZE + MAX_EXTENT_SIZE) e)),
      offset := off + i * MAX_EXTENT_SIZE,
      bytes := min (s + i * MAX_EXTENT_SIZE + MAX_EXTENT_SIZE) e -
        (s + i * MAX_EXTENT_SIZE),
      is_sparse := false,
      is_shared := sh,
      fs_extent := fs }

end Chunker

/-! ## tumulus-server: blob-layout codec (`crates/tumulus-server/src/blob.rs`) -/

namespace Blob

/-- `2^64`, the modulus of Rust `u64` / 64-bit `usize` arithmetic. -/
def U64 : Nat := 2 ^ 64

/-- `BLOB_VERSION`. -/
def BLOB_VERSION : Nat := 0x01

/-- `EXTENT_ID_SIZE`. -/
def EXTENT_ID_SIZE : Nat := 0x20

/-- `tumulus-server::blob::BlobExtent`. -/
structure BlobExtent where
  offset : Nat
  length : Nat
  extent_id : Bytes
deriving DecidableEq, Repr

/-- `tumulus-server::blob::BlobLayout`. -/
structure BlobLayout where
  total_bytes : Nat
  extents : List BlobExtent
deriving DecidableEq, Repr

/-- `tumulus-server::blob::BlobDecodeError`. -/
inductive BlobDecodeError where
  | InvalidVersion (v : Nat)
  | InvalidExtentIdSize (s : Nat)
  | Truncated
  | NotSorted
  | Overlapping
deriving DecidableEq, Repr

/-- Result of running `BlobLayout::decode`.  `panic` records the executions in
which the Rust code panics (a `bytes::Buf` read past the end of the buffer;
in debug builds the unchecked `extent_count * 48` multiplication). -/
inductive DecodeOutcome where
  | ok (layout : BlobLayout)
  | err (e : BlobDecodeError)
  | panic
deriving DecidableEq, Repr

/-- One 48-byte extent record as written by `BlobLayout::encode`:
`offset` u64-LE, `length` u64-LE, then the 32 id bytes. -/
def rowBytes (e : BlobExtent) : Bytes :=
  leBytes 8 e.offset ++ (leBytes 8 e.length ++ e.extent_id)

/-- `BlobLayout::encode`: version byte, id-size byte, `total_bytes` u64-LE,
extent count u64-LE, then one 48-byte record per extent. -/
def encode (x : BlobLayout) : Bytes :=
  BLOB_VERSION :: EXTENT_ID_SIZE :: (leBytes 8 x.total_bytes ++
    (leBytes 8 x.extents.length ++ x.extents.flatMap rowBytes))

/-- The record-reading loop of `BlobLayout::decode` (blob.rs lines 95-117).
`get_u64_le` panics when fewer than 8 bytes remain, `copy_to_slice` when
fewer than 32 remain; `offset + length` wraps modulo `2^64` in release
builds, which is modelled explicitly. -/
def decodeExtents (total : Nat) (data : Bytes) (count : Nat) (prev_end : Nat)
    (acc : List BlobExtent) : DecodeOutcome :=
  match count with
  | 0 => .ok ⟨total, acc.reverse⟩
  | c + 1 =>
    if data.length < 8 then .panic
    else
      let offset := readLEList (data.take 8)
      let d1 := data.drop 8
      if d1.length < 8 then .panic
      else
        let length := readLEList (d1.take 8)
        let d2 := d1.drop 8
        if d2.length < 32 then .panic
        else
          let extent_id := d2.take 32
          let d3 := d2.drop 32
          if offset < prev_end then
            if (offset + length) % U64 > prev_end then .err .Overlapping
            else .err .NotSorted
          else
            decodeExtents total d3 c ((offset + length) % U64)
              (⟨offset, length, extent_id⟩ :: acc)

/-- `BlobLayout::decode` (blob.rs lines 69-123).  The `extent_count *
EXTENT_ENTRY_SIZE` multiplication is unchecked `usize` arithmetic: in
release builds it wraps modulo `2^64`, which is modelled explicitly. -/
def decode (data : Bytes) : DecodeOutcome :=
  if data.length < 18 then .err .Truncated
  else
    let version := data.getD 0 0
    let id_size := data.getD 1 0
    if version ≠ BLOB_VERSION then .err (.InvalidVersion version)
    else if id_size ≠ EXTENT_ID_SIZE then .err (.InvalidExtentIdSize id_size)
    else
      let total_bytes := readLEList ((data.drop 2).take 8)
      let extent_count := readLEList ((data.drop 10).take 8)
      let rest := data.drop 18
      let expected_size := (extent_count * 48) % U64
      if rest.length < expected_size then .err .Truncated
      else decodeExtents total_bytes rest extent_count 0 []

/-- Specification-side classification of the first offending extent row, as
the code's validation behaves: scanning rows left to right with a running
previous end, the first row starting before the previous end is an error —
`Overlapping` when it also extends past the previous end, `NotSorted`
otherwise. -/
def firstViolation (prev_end : Nat) : List BlobExtent → Option BlobDecodeError
  | [] => none
  | e :: rest =>
    if e.offset < prev_end then
      some (if e.offset + e.length > prev_end then .Overlapping else .NotSorted)
    else firstViolation (e.offset + e.length) rest

/-- The claim's validity predicate for a blob layout: extent rows strictly
ascending by offset and non-overlapping. -/
def ValidLayout (x : BlobLayout) : Prop :=
  x.extents.Chain' fun a b => a.offset < b.offset ∧ a.offset + a.length ≤ b.offset

end Blob

/-! ## tumulus-server: extent store write path
(`storage/fs.rs` `FsStorage::put_extent`, `api/extents.rs` `put_extent`,
`api/error.rs` `IntoResponse for StorageError`) -/

namespace Store

/-- Result of `FsStorage::put_extent`: `Ok(true)` (created), `Ok(false)`
(already existed), or the hash-mismatch error. -/
inductive PutExtentResult where
  | created
  | alreadyExists
  | hashMismatch (expected actual : Bytes)
deriving DecidableEq, Repr

/-- Lookup of a content-addressed object in the store, modelled as an
association list from extent id to stored bytes (`try_exists` + read). -/
def lookupStore (store : List (Bytes × Bytes)) (id : Bytes) : Option Bytes :=
  match store with
  | [] => none
  | (k, v) :: rest => if k = id then some v else lookupStore rest id

/-- `FsStorage::put_extent` (fs.rs lines 67-124): if the sharded path already
exists, write nothing and report `Ok(false)`; otherwise stream the body
chunks to a temp file while feeding them to the hasher, compare the final
hash with `id`; on mismatch delete the temp file (no store change) and
fail; on match rename the temp file into place.  The incremental hash of
the streamed chunks is `H` of their concatenation. -/
def put_extent (H : Bytes → Bytes) (store : List (Bytes × Bytes)) (id : Bytes)
    (chunks : List Bytes) : List (Bytes × Bytes) × PutExtentResult :=
  if (lookupStore store id).isSome then (store, .alreadyExists)
  else
    let content := chunks.flatten
    let actual := H content
    if actual ≠ id then (store, .hashMismatch id actual)
    else ((id, content) :: store, .created)

/-- HTTP status produced by the `PUT /extents/:id` handler
(api/extents.rs lines 69-79) combined with the `StorageError` response
mapping (api/error.rs lines 15-37). -/
def putExtentStatus : PutExtentResult → Nat
  | .created => 201
  | .alreadyExists => 200
  | .hashMismatch _ _ => 400

/-- The `error` field of the JSON body for an error outcome
(api/error.rs: `StorageError::HashMismatch` renders as "Hash mismatch"). -/
def putExtentErrorBody : PutExtentResult → Option String
  | .hashMismatch _ _ => some "Hash mismatch"
  | _ => none

end Store

/-! ## tumulus-server: upload sessions
(`db.rs` and `api/catalogs.rs`) -/

namespace Server

/-- `db::CatalogStatus`. -/
inductive CatalogStatus where
  | pending
  | uploading
  | complete
deriving DecidableEq, Repr

/-- Per-session information (`db::CatalogInfo`, without the timestamp). -/
structure CatalogInfo where
  checksum : Bytes
  status : CatalogStatus
deriving DecidableEq, Repr

/-- The upload-state database: the `catalogs` table and the
`catalog_extents` table. -/
structure UploadDb where
  catalogs : List (Nat × CatalogInfo)
  extents : List (Nat × List Bytes)
deriving DecidableEq, Repr

/-- `UploadDb::get_catalog`. -/
def get_catalog (db : UploadDb) (id : Nat) : Option CatalogInfo :=
  match db.catalogs.find? (fun p => p.1 = id) with
  | some p => some p.2
  | none => none

/-- `UploadDb::create_catalog`: inserts a new row with status `pending`. -/
def create_catalog (db : UploadDb) (id : Nat) (checksum : Bytes) : UploadDb :=
  { db with catalogs := (id, ⟨checksum, .pending⟩) :: db.catalogs }

/-- `UploadDb::get_catalog_extents`. -/
def get_catalog_extents (db : UploadDb) (id : Nat) : List Bytes :=
  match db.extents.find? (fun p => p.1 = id) with
  | some p => p.2
  | none => []

/-- `get_missing_extents_from_ids` against the object store, modelled as the
list of extent ids present: keep the ids not in the store. -/
def get_missing (store : List Bytes) (ids : List Bytes) : List Bytes :=
  ids.filter fun i => decide (i ∉ store)

/-- The response of `POST /catalogs` (`InitiateResponse` plus HTTP status:
200 for resume/create, 303 `SEE_OTHER` for the checksum-conflict case). -/
structure InitiateResponse where
  status : Nat
  id : Nat
  resuming : Bool
  missing_extents : Option (List Bytes)
deriving DecidableEq, Repr

/-- `initiate_upload` (api/catalogs.rs lines 167-241).  `fresh` stands for
the random id drawn by `generate_catalog_id` in the conflict branch. -/
def initiate_upload (db : UploadDb) (store : List Bytes) (req_id : Nat)
    (checksum : Bytes) (fresh : Nat) : UploadDb × InitiateResponse :=
  match get_catalog db req_id with
  | some existing =>
    if existing.checksum = checksum then
      (db, ⟨200, req_id, true, some (get_missing store (get_catalog_extents db req_id))⟩)
    else
      (create_catalog db fresh checksum, ⟨303, fresh, false, none⟩)
  | none =>
    (create_catalog db req_id checksum, ⟨200, req_id, false, none⟩)

/-- The upload client's reaction to the initiate response
(`bin/tumulus-upload.rs` lines 245-254): if the server assigned a
different id, surface `IdChanged` instead of proceeding. -/
inductive ClientInitOutcome where
  | idChanged (original new_id : Nat)
  | proceed (resuming : Bool) (missing_extents : Option (List Bytes))
deriving DecidableEq, Repr

/-- `run`'s handling of the initiate response in the upload client. -/
def client_handle_initiate (original : Nat) (resp : InitiateResponse) :
    ClientInitOutcome :=
  if resp.id ≠ original then .idChanged original resp.id
  else .proceed resp.resuming resp.missing_extents

/-- Status transition of `PUT /catalogs/:id` (api/catalogs.rs lines 257-322):
only a `pending` session whose body checksum matches is advanced (to
`uploading`, by `process_catalog_contents`); any other status is left
unchanged (idempotent re-upload path). -/
def status_after_upload_catalog (st : CatalogStatus) (checksum_ok : Bool) :
    CatalogStatus :=
  match st with
  | .pending => if checksum_ok then .uploading else .pending
  | s => s

/-- Status transition of `POST /catalogs/:id` finalize (api/catalogs.rs lines
527-590): a `complete` session stays complete; otherwise the session
becomes complete exactly when no required extent is missing. -/
def status_after_finalize (st : CatalogStatus) (missing_empty : Bool) :
    CatalogStatus :=
  match st with
  | .complete => .complete
  | s => if missing_empty then .complete else s

/-- Status transition of `PUT /catalogs/:id/patch` (api/catalogs.rs lines
401-498): on failure (missing reference, bad patch, checksum mismatch) the
session is untouched; on success the entry is created if absent and then
`process_catalog_contents` sets the status to `uploading` — with no check
of the previous status. -/
def status_after_patch (st : Option CatalogStatus) (patch_ok : Bool) :
    Option CatalogStatus :=
  if patch_ok then some .uploading else st

end Server

/-! ## tumulus: tree hasher (`crates/tumulus/src/tree.rs`) -/

namespace Tree

/-- The part of `tumulus::FileInfo` consumed by `compute_tree_hash`: the
relative path (as bytes, unix separators) and, for regular files, the
blob's id.  The remaining `FileInfo` fields (timestamps, mode, owner,
inode, special) are never read by the tree hasher and are omitted. -/
structure FileInfo where
  relative_path : Bytes
  blob : Option Bytes
deriving DecidableEq, Repr

/-- Insertion into a `BTreeMap<&str, &[u8; 32]>` modelled as a sorted
association list in byte-lexicographic key order: inserting an existing
key overwrites the value. -/
def mapInsert (k v : Bytes) : List (Bytes × Bytes) → List (Bytes × Bytes)
  | [] => [(k, v)]
  | (k1, v1) :: rest =>
    if lexLt k k1 then (k, v) :: (k1, v1) :: rest
    else if lexLt k1 k then (k1, v1) :: mapInsert k v rest
    else (k1, v) :: rest

/-- The `tree_entries` map built by `compute_tree_hash` (tree.rs lines
23-29): insert `(path, blob_id)` for every file that has a blob. -/
def tree_entries (files : List FileInfo) : List (Bytes × Bytes) :=
  files.foldl
    (fun m f =>
      match f.blob with
      | some b => mapInsert f.relative_path b m
      | none => m)
    []

/-- Bytes fed to the hasher for one map entry (tree.rs lines 33-38):
u32-LE path length, path bytes, blob id. -/
def entryBytes (e : Bytes × Bytes) : Bytes :=
  leBytes 4 e.1.length ++ e.1 ++ e.2

/-- `compute_tree_hash` (tree.rs lines 21-42): hash of the concatenated
entry bytes in map (byte-lexicographic path) order. -/
def compute_tree_hash (H : Bytes → Bytes) (files : List FileInfo) : Bytes :=
  H ((tree_entries files).flatMap entryBytes)

/-- The files having a blob, as `(path, blob_id)` pairs in input order
(specification-side). -/
def blobPairs (files : List FileInfo) : List (Bytes × Bytes) :=
  files.filterMap fun f => f.blob.map fun b => (f.relative_path, b)

/-- Non-strict byte-lexicographic order on entries by path
(specification-side sorting relation). -/
def pathLe (a b : Bytes × Bytes) : Prop :=
  lexLt b.1 a.1 = false

/-- Strict byte-lexicographic order on entries by path (used to state the
ordering invariant of the `BTreeMap` model). -/
def entLt (a b : Bytes × Bytes) : Prop :=
  lexLt a.1 b.1 = true

instance : DecidableRel pathLe := fun a b => by
  unfold pathLe
  infer_instance

/-- Specification-side tree hash, as the claim words it: take exactly the
files that have a blob, order them by byte-lexicographic path, feed
u32-LE length, path, blob id per entry. -/
def spec_tree_hash (H : Bytes → Bytes) (files : List FileInfo) : Bytes :=
  H ((List.insertionSort pathLe (blobPairs files)).flatMap entryBytes)

end Tree

/-! ## Theorems -/

/-- Claim C1: for every PUT /extents/:id request, if the object for `id`
already exists the server responds 200 and writes nothing; if the
incrementally computed hash of the streamed body differs from `id` the
temporary file is discarded, the store is unchanged (no object for `id`
becomes visible) and the response is 400 with reason "Hash mismatch";
if the hash matches, the content is stored under `id` and the response
is 201. -/
theorem put_extent_spec (H : Bytes → Bytes) (store : List (Bytes × Bytes)) (id : Bytes)
    (chunks : List Bytes) :
    (Store.lookupStore store id = none → H chunks.flatten ≠ id →
      (Store.put_extent H store id chunks).1 = store ∧
      Store.lookupStore (Store.put_extent H store id chunks).1 id = none ∧
      Store.putExtentStatus (Store.put_extent H store id chunks).2 = 400 ∧
      Store.putExtentErrorBody (Store.put_extent H store id chunks).2 = some "Hash mismatch") ∧
    (Store.lookupStore store id = none → H chunks.flatten = id →
      Store.putExtentStatus (Store.put_extent H store id chunks).2 = 201 ∧
      Store.lookupStore (Store.put_extent H store id chunks).1 id = some chunks.flatten) ∧
    (∀ v, Store.lookupStore store id = some v →
      (Store.put_extent H store id chunks).1 = store ∧
      Store.putExtentStatus (Store.put_extent H store id chunks).2 = 200) := by
  refine ⟨fun hnone hne => ?_, fun hnone heq => ?_, fun v hsome => ?_⟩
  · simp [Store.put_extent, hnone, hne, Store.putExtentStatus, Store.putExtentErrorBody]
  · simp [Store.put_extent, hnone, heq, Store.putExtentStatus, Store.lookupStore]
  · simp [Store.put_extent, hsome, Store.putExtentStatus]

/-- Witness for `put_extent_spec`: with the identity as hash function,
storing body chunks `[[1], [2]]` under id `[1, 2]` in the empty store
succeeds with 201 and makes the content visible. -/
theorem put_extent_spec_witness :
    Store.putExtentStatus (Store.put_extent (fun l => l) [] [1, 2] [[1], [2]]).2 = 201 ∧
    Store.lookupStore (Store.put_extent (fun l => l) [] [1, 2] [[1], [2]]).1 [1, 2] =
      some [1, 2] := by
  have h := (put_extent_spec (fun l => l) [] [1, 2] [[1], [2]]).2.1 rfl (by decide)
  exact ⟨h.1, h.2⟩

/-- Claim C5 is violated by the code (code bug): a catalog upload session in
terminal status `Complete` is demoted back to `Uploading` by a successful
`PUT /catalogs/:id/patch`, because `upload_catalog_patch` runs
`process_catalog_contents` (which sets status `Uploading`) without
checking the previous status — unlike the plain `PUT /catalogs/:id` path,
which guards on `Pending`. -/
theorem patch_demotes_complete_session :
    Server.status_after_patch (some .complete) true = some .uploading ∧
    Server.CatalogStatus.uploading ≠ Server.CatalogStatus.complete ∧
    Server.status_after_upload_catalog .complete true = .complete ∧
    Server.status_after_finalize .complete true = .complete := by
  exact ⟨rfl, by decide, rfl, rfl⟩

/-- Claim C6 is violated by the code (code bug): `is_fiemap_unsupported`
matches only `EOPNOTSUPP` and `ENOTTY`, so a FIEMAP failure with `EINVAL`
is propagated as an error by `read_ranges` instead of falling back to the
single full-file range (which the claim, the spec, and the crate's own
test helper `is_unsupported_error` all expect). -/
theorem einval_is_propagated_not_fallback :
    Extentria.read_ranges_after_fiemap_error Extentria.EINVAL 4096 =
      .error Extentria.EINVAL ∧
    Extentria.is_fiemap_unsupported Extentria.EINVAL = false ∧
    Extentria.read_ranges_after_fiemap_error Extentria.EOPNOTSUPP 4096 =
      .ok [Extentria.DataRange.new 0 4096] ∧
    Extentria.read_ranges_after_fiemap_error Extentria.ENOTTY 0 = .ok [] := by
  exact ⟨rfl, rfl, rfl, rfl⟩

/-- Claim C7 is violated by the code (code bug): `FiemapExtent::shared()`
tests `flags & FIEMAP_EXTENT_SHARED == 1`, but the SHARED bit is 0x2000,
so the masked value is never 1 and every translated `DataRange` carries
`shared = false` — even for a record whose SHARED flag bit is set. -/
theorem fiemap_shared_always_false :
    (∀ e : Extentria.FiemapExtent, (Extentria.dataRangeOfExtent e).flags.shared = false) ∧
    (Extentria.dataRangeOfExtent ⟨0, 0, 4096, Extentria.FIEMAP_EXTENT_SHARED⟩).flags.shared =
      false ∧
    Extentria.FIEMAP_EXTENT_SHARED &&& Extentria.FIEMAP_EXTENT_SHARED ≠ 0 := by
  refine ⟨fun e => ?_, by decide, by decide⟩
  show Extentria.FiemapExtent.shared e = false
  unfold Extentria.FiemapExtent.shared
  have h0 : (e.flags &&& Extentria.FIEMAP_EXTENT_SHARED) &&& 1 = 0 := by
    rw [Nat.and_assoc]
    have h2 : Extentria.FIEMAP_EXTENT_SHARED &&& 1 = 0 := by decide
    rw [h2, Nat.and_zero]
  rw [beq_eq_false_iff_ne]
  intro h1
  rw [h1] at h0
  exact absurd h0 (by decide)

/-- Claim C9 is violated by the code (code bug): an 18-byte input declaring
`extent_count = 2^60` makes the unchecked `extent_count * 48` wrap to 0 in
release builds, so the `Truncated` guard passes and the record loop then
panics reading past the end of the buffer (in debug builds the
multiplication itself panics with overflow). -/
theorem decode_panics_on_count_overflow :
    Blob.decode (Blob.BLOB_VERSION :: Blob.EXTENT_ID_SIZE ::
        (leBytes 8 0 ++ leBytes 8 (2 ^ 60))) = .panic ∧
    (2 ^ 60 * 48) % Blob.U64 = 0 := by
  exact ⟨by decide, by decide⟩

/-- Claim C3's error classification is falsified at a concrete input: the
encoding of rows `(offset 0, length 100)` then `(offset 50, length 20)`
has strictly ascending offsets (so it is not out of order) and the second
row overlaps the first, yet `decode` returns `NotSorted`, not the
`Overlapping` the claim requires for overlapping rows. -/
theorem blob_decode_contained_overlap_misclassified :
    Blob.decode (Blob.encode ⟨1024,
        [⟨0, 100, List.replicate 32 3⟩, ⟨50, 20, List.replicate 32 4⟩]⟩) =
      .err .NotSorted ∧
    (0 : Nat) < 50 ∧ (50 : Nat) < 0 + 100 ∧
    Blob.BlobDecodeError.NotSorted ≠ .Overlapping := by
  exact ⟨by decide, by decide, by decide, by decide⟩

/-- Claim C4's "original session transitions to no-session" part is falsified
at a concrete input: after an initiate with id 1 and a checksum differing
from the stored session's, the session stored under id 1 is still present
and unchanged (the code never deletes it). -/
theorem initiate_conflict_keeps_original_session :
    Server.get_catalog
        (Server.initiate_upload ⟨[(1, ⟨[7], .pending⟩)], []⟩ [] 1 [8] 2).1 1 =
      some ⟨[7], .pending⟩ ∧
    (some (Server.CatalogInfo.mk [7] .pending) ≠ none) := by
  exact ⟨by decide, by decide⟩

/-- Claim C8's universal form is falsified at a concrete input: for two files
with the same relative path and different blob ids, the code's
`BTreeMap` keeps only the last inserted entry while the claim's
description feeds one entry per file; with the identity as hash
function the fed byte streams differ. -/
theorem tree_hash_duplicate_path_differs :
    Tree.compute_tree_hash (fun l => l) [⟨[97], some [1]⟩, ⟨[97], some [2]⟩] ≠
      Tree.spec_tree_hash (fun l => l) [⟨[97], some [1]⟩, ⟨[97], some [2]⟩] := by
  decide

/-! ### Chunker lemmas -/

namespace Chunker

open Extentria

theorem chunkCount_eq_zero {t : Nat} (h : t = 0) : chunkCount t = 0 := by
  subst h
  decide

theorem chunkCount_eq_one {t : Nat} (h0 : 0 < t) (h1 : t ≤ MAX_EXTENT_SIZE) :
    chunkCount t = 1 := by
  unfold chunkCount at *
  simp only [MAX_EXTENT_SIZE] at *
  omega

theorem chunkCount_step {t : Nat} (h : MAX_EXTENT_SIZE < t) :
    chunkCount t = chunkCount (t - MAX_EXTENT_SIZE) + 1 := by
  unfold chunkCount
  have h1 : t + MAX_EXTENT_SIZE - 1 =
      (t - MAX_EXTENT_SIZE + MAX_EXTENT_SIZE - 1) + MAX_EXTENT_SIZE := by
    simp only [MAX_EXTENT_SIZE] at *
    omega
  rw [h1, Nat.add_div_right]
  simp [MAX_EXTENT_SIZE]

theorem mul_lt_of_lt_chunkCount {i t : Nat} (h : i < chunkCount t) :
    i * MAX_EXTENT_SIZE < t := by
  unfold chunkCount at h
  have h2 : (i + 1) * MAX_EXTENT_SIZE ≤ t + MAX_EXTENT_SIZE - 1 :=
    (Nat.le_div_iff_mul_le (by simp [MAX_EXTENT_SIZE])).mp h
  simp only [MAX_EXTENT_SIZE] at *
  omega

theorem subchunks_stop (H : Bytes → Bytes) (mmap : Bytes) (sh : Bool) (fs : Nat)
    {cs off e : Nat} (h : ¬ cs < e) : subchunks H mmap sh fs cs off e = [] := by
  rw [subchunks]
  simp [h]

theorem specChunks_empty (H : Bytes → Bytes) (mmap : Bytes) (sh : Bool) (fs : Nat)
    {off s e : Nat} (h : e - s = 0) : specChunks H mmap sh fs off s e = [] := by
  unfold specChunks
  rw [chunkCount_eq_zero h]
  simp

theorem specChunks_single (H : Bytes → Bytes) (mmap : Bytes) (sh : Bool) (fs : Nat)
    {off s e : Nat} (h0 : 0 < e - s) (h1 : e ≤ s + MAX_EXTENT_SIZE) :
    specChunks H mmap sh fs off s e =
      [{ extent_id := H (slice mmap s e), offset := off, bytes := e - s,
         is_sparse := false, is_shared := sh, fs_extent := fs }] := by
  unfold specChunks
  rw [chunkCount_eq_one h0 (by omega)]
  have hr1 : List.range 1 = [0] := rfl
  rw [hr1]
  simp only [List.map_cons, List.map_nil, Nat.zero_mul, Nat.add_zero]
  rw [Nat.min_eq_right h1]

theorem specChunks_step (H : Bytes → Bytes) (mmap : Bytes) (sh : Bool) (fs : Nat)
    {off s e : Nat} (h : s + MAX_EXTENT_SIZE < e) :
    specChunks H mmap sh fs off s e =
      { extent_id := H (slice mmap s (s + MAX_EXTENT_SIZE)), offset := off,
        bytes := MAX_EXTENT_SIZE, is_sparse := false, is_shared := sh,
        fs_extent := fs } ::
        specChunks H mmap sh fs (off + MAX_EXTENT_SIZE) (s + MAX_EXTENT_SIZE) e := by
  unfold specChunks
  have harg : e - s - MAX_EXTENT_SIZE = e - (s + MAX_EXTENT_SIZE) := by omega
  have hcc : chunkCount (e - s) = chunkCount (e - (s + MAX_EXTENT_SIZE)) + 1 := by
    rw [chunkCount_step (by omega), harg]
  rw [hcc, List.range_succ_eq_map, List.map_cons, List.map_map]
  refine congrArg₂ List.cons ?_ ?_
  · have hmin : min (s + 0 * MAX_EXTENT_SIZE + MAX_EXTENT_SIZE) e =
        s + MAX_EXTENT_SIZE := by
      rw [Nat.zero_mul, Nat.add_zero]
      exact Nat.min_eq_left (by omega)
    rw [hmin, Nat.zero_mul, Nat.add_zero, Nat.add_zero, Nat.add_sub_cancel_left]
  · apply List.map_congr_left
    intro i _
    rw [Function.comp_apply]
    have h2 : s + MAX_EXTENT_SIZE + i * MAX_EXTENT_SIZE =
        s + (i + 1) * MAX_EXTENT_SIZE := by ring
    have h3 : off + MAX_EXTENT_SIZE + i * MAX_EXTENT_SIZE =
        off + (i + 1) * MAX_EXTENT_SIZE := by ring
    rw [h2, h3]

theorem subchunks_eq_specChunks (H : Bytes → Bytes) (mmap : Bytes) (sh : Bool) (fs : Nat) :
    ∀ n s off e, e - s ≤ n →
      subchunks H mmap sh fs s off e = specChunks H mmap sh fs off s e := by
  intro n
  induction n with
  | zero =>
    intro s off e he
    rw [subchunks_stop H mmap sh fs (by omega), specChunks_empty H mmap sh fs (by omega)]
  | succ n ih =>
    intro s off e he
    by_cases hlt : s < e
    · rw [subchunks]
      simp only [hlt, dite_true]
      have hM : 0 < MAX_EXTENT_SIZE := by decide
      by_cases hone : e ≤ s + MAX_EXTENT_SIZE
      · -- last (single remaining) chunk
        have hce : min (s + MAX_EXTENT_SIZE) e = e := Nat.min_eq_right hone
        rw [hce, subchunks_stop H mmap sh fs (lt_irrefl e),
          specChunks_single H mmap sh fs (by omega) hone]
      · -- a full chunk followed by the rest
        push_neg at hone
        have hce : min (s + MAX_EXTENT_SIZE) e = s + MAX_EXTENT_SIZE :=
          Nat.min_eq_left (by omega)
        have hoffs : s + MAX_EXTENT_SIZE - s = MAX_EXTENT_SIZE := by omega
        rw [hce, hoffs, ih (s + MAX_EXTENT_SIZE) (off + MAX_EXTENT_SIZE) e (by omega),
          specChunks_step H mmap sh fs hone]
    · rw [subchunks_stop H mmap sh fs hlt, specChunks_empty H mmap sh fs (by omega)]

/-- The non-sparse branch of `range_to_extent_infos` restated with its three
intermediate quantities (`start`, `end`, `total_len`) made explicit, for
use in evaluations and in the clamping proofs. -/
theorem rtei_nonsparse_eval (H : Bytes → Bytes) (range : DataRange) (mmap : Bytes)
    (fs : Nat) (hns : range.flags.sparse = false) (s e t : Nat)
    (hs : s = min range.offset mmap.length)
    (he : e = min ((s + range.length) % USIZE) mmap.length)
    (ht : t = (e + USIZE - s) % USIZE) :
    range_to_extent_infos H range mmap fs =
      if t = 0 then []
      else if t ≤ MAX_EXTENT_SIZE then
        [{ extent_id := H (slice mmap s e),
           offset := range.offset,
           bytes := t,
           is_sparse := false,
           is_shared := range.flags.shared,
           fs_extent := fs }]
      else subchunks H mmap range.flags.shared fs s range.offset e := by
  subst hs
  subst he
  subst ht
  unfold range_to_extent_infos
  rw [hns]
  simp only [Bool.false_eq_true, if_false]

/-- For ranges whose end offset does not overflow `usize` (in particular
every range within an actual file), the wrapped arithmetic is exact and
the non-sparse branch produces the specification chunk list over the
clamped interval. -/
theorem rtei_nonsparse (H : Bytes → Bytes) (range : DataRange) (mmap : Bytes) (fs : Nat)
    (hns : range.flags.sparse = false)
    (hfit : range.offset + range.length < USIZE) :
    range_to_extent_infos H range mmap fs =
      specChunks H mmap range.flags.shared fs (min range.offset mmap.length)
        (min range.offset mmap.length)
        (min (min range.offset mmap.length + range.length) mmap.length) := by
  rw [rtei_nonsparse_eval H range mmap fs hns _ _ _ rfl rfl rfl]
  set s := min range.offset mmap.length with hs
  have hstart_le : s ≤ range.offset := by
    rw [hs]
    exact Nat.min_le_left _ _
  have hmod1 : (s + range.length) % USIZE = s + range.length :=
    Nat.mod_eq_of_lt (by omega)
  rw [hmod1]
  set e := min (s + range.length) mmap.length with he
  have hse : s ≤ e := by
    rw [he]
    refine le_min (Nat.le_add_right _ _) ?_
    rw [hs]
    exact Nat.min_le_right _ _
  have helen : e ≤ s + range.length := by
    rw [he]
    exact Nat.min_le_left _ _
  have htot : (e + USIZE - s) % USIZE = e - s := by
    have h1 : e + USIZE - s = (e - s) + USIZE := by omega
    rw [h1, Nat.add_mod_right]
    exact Nat.mod_eq_of_lt (by omega)
  rw [htot]
  by_cases h0 : e - s = 0
  · simp only [h0, if_true]
    unfold specChunks
    rw [chunkCount_eq_zero h0]
    simp
  · simp only [h0, if_false]
    have hsoff : s = range.offset := by
      rw [hs]
      apply Nat.min_eq_left
      by_contra hc
      push_neg at hc
      have : s = mmap.length := by rw [hs]; exact Nat.min_eq_right (by omega)
      omega
    by_cases h1 : e - s ≤ MAX_EXTENT_SIZE
    · simp only [h1, if_true]
      rw [specChunks_single H mmap range.flags.shared fs (by omega) (by omega), hsoff]
    · simp only [h1, if_false]
      rw [subchunks_eq_specChunks H mmap range.flags.shared fs (e - s) s range.offset e
        (Nat.le_refl _), hsoff]

end Chunker

/-- Claim C2: fed a `DataRange` and the memory-mapped file, the chunker emits
for a sparse range exactly one all-zero-id `ExtentInfo` carrying the
range's offset and length, `is_sparse = true` and the given `fs_extent`;
for a non-sparse, non-empty range lying within the mapped file (its end
offset `offset + length` therefore also below `2^64`, so the `usize`
end-offset computation cannot wrap — automatic for any range over an
actual mapping) it emits one `ExtentInfo` hashing the whole slice when
the length is at most 128 KiB, and otherwise one hashed `ExtentInfo` per
consecutive 128-KiB chunk (last possibly shorter) starting at the
range's start offset, all carrying the same `fs_extent`. -/
theorem range_to_extent_infos_spec (H : Bytes → Bytes) (range : Extentria.DataRange)
    (mmap : Bytes) (fs : Nat) :
    (range.flags.sparse = true →
      Chunker.range_to_extent_infos H range mmap fs =
        [{ extent_id := List.replicate 32 0, offset := range.offset,
           bytes := range.length, is_sparse := true, is_shared := false,
           fs_extent := fs }]) ∧
    (range.flags.sparse = false → 0 < range.length →
      range.offset + range.length ≤ mmap.length →
      range.offset + range.length < USIZE →
      (range.length ≤ Chunker.MAX_EXTENT_SIZE →
        Chunker.range_to_extent_infos H range mmap fs =
          [{ extent_id := H (Chunker.slice mmap range.offset (range.offset + range.length)),
             offset := range.offset, bytes := range.length, is_sparse := false,
             is_shared := range.flags.shared, fs_extent := fs }]) ∧
      (Chunker.MAX_EXTENT_SIZE < range.length →
        Chunker.range_to_extent_infos H range mmap fs =
          Chunker.specChunks H mmap range.flags.shared fs range.offset range.offset
            (range.offset + range.length))) := by
  constructor
  · intro hsp
    unfold Chunker.range_to_extent_infos
    rw [hsp]
    simp
  · intro hns hpos hbound hfit
    have hs : min range.offset mmap.length = range.offset := Nat.min_eq_left (by omega)
    have he : min (range.offset + range.length) mmap.length =
        range.offset + range.length := Nat.min_eq_left hbound
    have hmaster := Chunker.rtei_nonsparse H range mmap fs hns hfit
    rw [hs, he] at hmaster
    constructor
    · intro hle
      rw [hmaster,
        Chunker.specChunks_single H mmap range.flags.shared fs (by omega) (by omega)]
      have h2 : range.offset + range.length - range.offset = range.length := by omega
      rw [h2]
    · intro hgt
      exact hmaster

/-- Witness for `range_to_extent_infos_spec`: the sparse branch at a concrete
hole, and the subchunking branch on a 128 KiB + 1 byte range over an
all-zero mapped file. -/
theorem range_to_extent_infos_spec_witness :
    Chunker.range_to_extent_infos (fun l => l) (Extentria.DataRange.sparse 5 9) [0, 0] 3 =
      [{ extent_id := List.replicate 32 0, offset := 5, bytes := 9,
         is_sparse := true, is_shared := false, fs_extent := 3 }] ∧
    Chunker.range_to_extent_infos (fun l => l) (Extentria.DataRange.new 0 131073)
        (List.replicate 131073 0) 7 =
      Chunker.specChunks (fun l => l) (List.replicate 131073 0) false 7 0 0 131073 := by
  constructor
  · exact (range_to_extent_infos_spec (fun l => l)
      (Extentria.DataRange.sparse 5 9) [0, 0] 3).1 rfl
  · have h := (range_to_extent_infos_spec (fun l => l)
      (Extentria.DataRange.new 0 131073) (List.replicate 131073 0) 7).2
      rfl (by decide)
      (by show (0 : Nat) + 131073 ≤ (List.replicate 131073 (0 : Nat)).length
          rw [List.length_replicate])
      (by decide)
    have h2 := h.2 (by decide)
    exact h2

/-- Claim C10's universal form is falsified at a concrete input: the valid
u64 pair `offset = 50`, `length = 2^64 - 10` on a 100-byte mapping makes
the source's `start + range.length` wrap (release builds), the wrapped
end offset 40 falls below `start = 50`, and the chunker returns no
extents — dropping the range's in-file bytes 50..100 — whereas the range
truncated at the file end yields one 50-byte chunk, so the output is not
invariant under clamping the range to the file length. -/
theorem range_clamping_wrap_counterexample :
    Chunker.range_to_extent_infos (fun l => l) ⟨50, 2 ^ 64 - 10, ⟨false, false⟩⟩
        (List.replicate 100 7) 1 = [] ∧
    Chunker.range_to_extent_infos (fun l => l)
        ⟨50, min (2 ^ 64 - 10) (100 - 50), ⟨false, false⟩⟩ (List.replicate 100 7) 1 =
      [{ extent_id := Chunker.slice (List.replicate 100 7) 50 100, offset := 50,
         bytes := 50, is_sparse := false, is_shared := false, fs_extent := 1 }] ∧
    Chunker.range_to_extent_infos (fun l => l) ⟨50, 2 ^ 64 - 10, ⟨false, false⟩⟩
        (List.replicate 100 7) 1 ≠
      Chunker.range_to_extent_infos (fun l => l)
        ⟨50, min (2 ^ 64 - 10) (100 - 50), ⟨false, false⟩⟩ (List.replicate 100 7) 1 ∧
    (50 : Nat) < (List.replicate (100 : Nat) (7 : Nat)).length := by
  have h1 : Chunker.range_to_extent_infos (fun l => l) ⟨50, 2 ^ 64 - 10, ⟨false, false⟩⟩
      (List.replicate 100 7) 1 = [] := by
    rw [Chunker.rtei_nonsparse_eval (fun l => l) _ _ 1 rfl 50 40 (2 ^ 64 - 10)
      (by decide) (by decide) (by decide)]
    rw [if_neg (by decide), if_neg (by decide)]
    exact Chunker.subchunks_stop (fun l => l) (List.replicate 100 7) false 1 (by decide)
  have h2 : Chunker.range_to_extent_infos (fun l => l)
      ⟨50, min (2 ^ 64 - 10) (100 - 50), ⟨false, false⟩⟩ (List.replicate 100 7) 1 =
      [{ extent_id := Chunker.slice (List.replicate 100 7) 50 100, offset := 50,
         bytes := 50, is_sparse := false, is_shared := false, fs_extent := 1 }] := by
    rw [Chunker.rtei_nonsparse_eval (fun l => l) _ _ 1 rfl 50 100 50
      (by decide) (by decide) (by decide)]
    rw [if_neg (by decide), if_pos (by decide)]
  refine ⟨h1, h2, ?_, by decide⟩
  rw [h1, h2]
  exact (List.cons_ne_nil _ _).symm

/-- Claim C10 as amended: for every non-sparse range whose end offset
`offset + length` does not overflow `usize` (below `2^64` — automatic
for every range the program derives from a file, whose ranges satisfy
`offset + length ≤ file size`), the chunker clamps the range to the
mapped file's length before slicing: a range starting at or past the end
of the map yields no extents, truncating the range's length at the file
end does not change the output, and every emitted extent describes bytes
lying within the mapped file (no out-of-bounds indexing).  When
`offset + length` overflows `usize`, release builds wrap the end offset
and the chunker returns no extents, dropping the range's in-file bytes
(debug builds panic on the overflow). -/
theorem range_clamping_spec (H : Bytes → Bytes) (range : Extentria.DataRange)
    (mmap : Bytes) (fs : Nat) (hns : range.flags.sparse = false)
    (hfit : range.offset + range.length < USIZE) :
    (mmap.length ≤ range.offset →
      Chunker.range_to_extent_infos H range mmap fs = []) ∧
    Chunker.range_to_extent_infos H range mmap fs =
      Chunker.range_to_extent_infos H
        ⟨range.offset, min range.length (mmap.length - range.offset), range.flags⟩
        mmap fs ∧
    (∀ info ∈ Chunker.range_to_extent_infos H range mmap fs,
      info.offset + info.bytes ≤ mmap.length) := by
  have hmaster := Chunker.rtei_nonsparse H range mmap fs hns hfit
  have hmaster2 := Chunker.rtei_nonsparse H
    ⟨range.offset, min range.length (mmap.length - range.offset), range.flags⟩ mmap fs hns
    (by simp only; omega)
  refine ⟨fun hpast => ?_, ?_, ?_⟩
  · rw [hmaster]
    have h1 : min range.offset mmap.length = mmap.length := Nat.min_eq_right hpast
    rw [h1]
    have h2 : min (mmap.length + range.length) mmap.length = mmap.length :=
      Nat.min_eq_right (by omega)
    rw [h2]
    unfold Chunker.specChunks
    rw [Chunker.chunkCount_eq_zero (by omega)]
    simp
  · rw [hmaster, hmaster2]
    have he : min (min range.offset mmap.length + range.length) mmap.length =
        min (min range.offset mmap.length +
          min range.length (mmap.length - range.offset)) mmap.length := by
      omega
    rw [he]
  · intro info hmem
    rw [hmaster] at hmem
    unfold Chunker.specChunks at hmem
    simp only [List.mem_map, List.mem_range] at hmem
    obtain ⟨i, hi, hinfo⟩ := hmem
    have hbound := Chunker.mul_lt_of_lt_chunkCount hi
    subst hinfo
    simp only
    have h1 : min range.offset mmap.length + i * Chunker.MAX_EXTENT_SIZE <
        min (min range.offset mmap.length + range.length) mmap.length := by omega
    omega

/-- Witness for `range_clamping_spec`: a non-sparse range reaching past the
end of a 3-byte file. -/
theorem range_clamping_spec_witness :
    Chunker.range_to_extent_infos (fun l => l) (Extentria.DataRange.new 1 10) [4, 5, 6] 1 =
      Chunker.range_to_extent_infos (fun l => l) ⟨1, min 10 (3 - 1), ⟨false, false⟩⟩
        [4, 5, 6] 1 ∧
    (∀ info ∈ Chunker.range_to_extent_infos (fun l => l)
        (Extentria.DataRange.new 1 10) [4, 5, 6] 1,
      info.offset + info.bytes ≤ 3) := by
  have h := range_clamping_spec (fun l => l) (Extentria.DataRange.new 1 10) [4, 5, 6] 1 rfl
    (by decide)
  exact ⟨h.2.1, h.2.2⟩

/-- Claim C4 as amended: when initiate is called with an id whose existing
session has a different checksum, the server issues the fresh id with a
Pending session under it and responds with 303-semantics, resuming=false
and no missing-extent list, and the client surfaces IdChanged — but the
session stored under the original id remains unchanged (it is not
deleted). -/
theorem initiate_conflict_amended (db : Server.UploadDb) (store : List Bytes)
    (req_id : Nat) (checksum : Bytes) (fresh : Nat) (s : Server.CatalogInfo)
    (hs : Server.get_catalog db req_id = some s) (hne : s.checksum ≠ checksum)
    (hfresh : fresh ≠ req_id) :
    (Server.initiate_upload db store req_id checksum fresh).2 =
      ⟨303, fresh, false, none⟩ ∧
    Server.get_catalog (Server.initiate_upload db store req_id checksum fresh).1 fresh =
      some ⟨checksum, .pending⟩ ∧
    Server.get_catalog (Server.initiate_upload db store req_id checksum fresh).1 req_id =
      some s ∧
    Server.client_handle_initiate req_id
        (Server.initiate_upload db store req_id checksum fresh).2 =
      .idChanged req_id fresh := by
  have hres : Server.initiate_upload db store req_id checksum fresh =
      (Server.create_catalog db fresh checksum, ⟨303, fresh, false, none⟩) := by
    unfold Server.initiate_upload
    rw [hs]
    simp [hne]
  refine ⟨by rw [hres], ?_, ?_, ?_⟩
  · rw [hres]
    unfold Server.get_catalog Server.create_catalog
    simp [List.find?_cons_of_pos]
  · rw [hres]
    have hstep : (Server.create_catalog db fresh checksum).catalogs.find?
        (fun p => p.1 = req_id) = db.catalogs.find? (fun p => p.1 = req_id) := by
      unfold Server.create_catalog
      simp only
      rw [List.find?_cons_of_neg]
      simp [hfresh]
    unfold Server.get_catalog at hs ⊢
    rw [hstep]
    exact hs
  · rw [hres]
    unfold Server.client_handle_initiate
    simp [hfresh]

/-- Witness for `initiate_conflict_amended`: a database holding session id 1
with checksum `[7]`, initiate with checksum `[8]` and fresh id 2. -/
theorem initiate_conflict_amended_witness :
    (Server.initiate_upload ⟨[(1, ⟨[7], .pending⟩)], []⟩ [] 1 [8] 2).2 =
      ⟨303, 2, false, none⟩ ∧
    Server.get_catalog (Server.initiate_upload ⟨[(1, ⟨[7], .pending⟩)], []⟩ [] 1 [8] 2).1 2 =
      some ⟨[8], .pending⟩ ∧
    Server.get_catalog (Server.initiate_upload ⟨[(1, ⟨[7], .pending⟩)], []⟩ [] 1 [8] 2).1 1 =
      some ⟨[7], .pending⟩ ∧
    Server.client_handle_initiate 1
        (Server.initiate_upload ⟨[(1, ⟨[7], .pending⟩)], []⟩ [] 1 [8] 2).2 =
      .idChanged 1 2 :=
  initiate_conflict_amended ⟨[(1, ⟨[7], .pending⟩)], []⟩ [] 1 [8] 2 ⟨[7], .pending⟩
    (by decide) (by decide) (by decide)

/-! ### Blob codec lemmas -/

namespace Blob

theorem leBytes_length (w : Nat) : ∀ n, (leBytes w n).length = w := by
  induction w with
  | zero => intro n; rfl
  | succ w ih => intro n; simp [leBytes, ih]

theorem readLEList_leBytes (w : Nat) : ∀ n, readLEList (leBytes w n) = n % 256 ^ w := by
  induction w with
  | zero => intro n; simp [leBytes, readLEList, Nat.mod_one]
  | succ w ih =>
    intro n
    rw [leBytes, readLEList, ih, pow_succ']
    exact Nat.mod_mul.symm

theorem readLEList_leBytes_eight {n : Nat} (h : n < U64) :
    readLEList (leBytes 8 n) = n := by
  rw [readLEList_leBytes]
  apply Nat.mod_eq_of_lt
  have h2 : (256 : Nat) ^ 8 = U64 := by norm_num [U64]
  omega

theorem rowBytes_length {e : BlobExtent} (h : e.extent_id.length = 32) :
    (rowBytes e).length = 48 := by
  simp [rowBytes, leBytes_length, h]

theorem flatMap_rowBytes_length (rows : List BlobExtent)
    (h : ∀ e ∈ rows, e.extent_id.length = 32) :
    (rows.flatMap rowBytes).length = 48 * rows.length := by
  induction rows with
  | nil => simp
  | cons e rest ih =>
    simp only [List.flatMap_cons, List.length_append, List.length_cons,
      rowBytes_length (h e (by simp))]
    rw [ih (fun f hf => h f (by simp [hf]))]
    ring

theorem decodeExtents_encodeRows (total : Nat) (rows : List BlobExtent) :
    ∀ (prev : Nat) (acc : List BlobExtent),
    (∀ e ∈ rows, e.extent_id.length = 32) →
    (∀ e ∈ rows, e.offset + e.length < U64) →
    decodeExtents total (rows.flatMap rowBytes) rows.length prev acc =
      (match firstViolation prev rows with
       | some err => DecodeOutcome.err err
       | none => DecodeOutcome.ok ⟨total, acc.reverse ++ rows⟩) := by
  induction rows with
  | nil =>
    intro prev acc _ _
    simp [decodeExtents, firstViolation]
  | cons e rest ih =>
    intro prev acc hids hends
    have hid : e.extent_id.length = 32 := hids e (by simp)
    have hend : e.offset + e.length < U64 := hends e (by simp)
    have hdata : (e :: rest).flatMap rowBytes =
        leBytes 8 e.offset ++ (leBytes 8 e.length ++
          (e.extent_id ++ rest.flatMap rowBytes)) := by
      simp [rowBytes, List.append_assoc]
    have htake1 : (leBytes 8 e.offset ++ (leBytes 8 e.length ++
        (e.extent_id ++ rest.flatMap rowBytes))).take 8 = leBytes 8 e.offset :=
      List.take_left' (leBytes_length 8 _)
    have hdrop1 : (leBytes 8 e.offset ++ (leBytes 8 e.length ++
        (e.extent_id ++ rest.flatMap rowBytes))).drop 8 =
        leBytes 8 e.length ++ (e.extent_id ++ rest.flatMap rowBytes) :=
      List.drop_left' (leBytes_length 8 _)
    have htake2 : (leBytes 8 e.length ++
        (e.extent_id ++ rest.flatMap rowBytes)).take 8 = leBytes 8 e.length :=
      List.take_left' (leBytes_length 8 _)
    have hdrop2 : (leBytes 8 e.length ++
        (e.extent_id ++ rest.flatMap rowBytes)).drop 8 =
        e.extent_id ++ rest.flatMap rowBytes :=
      List.drop_left' (leBytes_length 8 _)
    have htake3 : (e.extent_id ++ rest.flatMap rowBytes).take 32 = e.extent_id :=
      List.take_left' hid
    have hdrop3 : (e.extent_id ++ rest.flatMap rowBytes).drop 32 =
        rest.flatMap rowBytes := List.drop_left' hid
    have hlen1 : ¬ (leBytes 8 e.offset ++ (leBytes 8 e.length ++
        (e.extent_id ++ rest.flatMap rowBytes))).length < 8 := by
      simp [List.length_append, leBytes_length]
    have hlen2 : ¬ (leBytes 8 e.length ++
        (e.extent_id ++ rest.flatMap rowBytes)).length < 8 := by
      simp [List.length_append, leBytes_length]
    have hlen3 : ¬ (e.extent_id ++ rest.flatMap rowBytes).length < 32 := by
      simp [List.length_append, hid]
    have hoff : readLEList (leBytes 8 e.offset) = e.offset :=
      readLEList_leBytes_eight (by omega)
    have hle : readLEList (leBytes 8 e.length) = e.length :=
      readLEList_leBytes_eight (by omega)
    have hmod : (e.offset + e.length) % U64 = e.offset + e.length :=
      Nat.mod_eq_of_lt hend
    have hfvcons : firstViolation prev (e :: rest) =
        if e.offset < prev then
          some (if e.offset + e.length > prev then BlobDecodeError.Overlapping
            else BlobDecodeError.NotSorted)
        else firstViolation (e.offset + e.length) rest := rfl
    rw [List.length_cons, hdata, decodeExtents, hfvcons]
    simp only [hlen1, if_false, hdrop1, htake1, hlen2, hdrop2, htake2, hlen3,
      htake3, hdrop3, hoff, hle, hmod]
    by_cases hviol : e.offset < prev
    · simp only [hviol, if_true]
      by_cases hover : e.offset + e.length > prev
      · simp [hover]
      · simp [hover]
    · simp only [hviol, if_false]
      rw [ih (e.offset + e.length) (⟨e.offset, e.length, e.extent_id⟩ :: acc)
        (fun f hf => hids f (by simp [hf])) (fun f hf => hends f (by simp [hf]))]
      cases hfv : firstViolation (e.offset + e.length) rest with
      | some err => simp
      | none => simp [List.reverse_cons, List.append_assoc]

theorem firstViolation_none_of_chain (rows : List BlobExtent) :
    ∀ prev, (∀ f, rows.head? = some f → prev ≤ f.offset) →
    rows.Chain' (fun a b => a.offset < b.offset ∧ a.offset + a.length ≤ b.offset) →
    firstViolation prev rows = none := by
  induction rows with
  | nil => intro prev _ _; rfl
  | cons e rest ih =>
    intro prev hprev hchain
    have h1 : prev ≤ e.offset := hprev e rfl
    unfold firstViolation
    rw [if_neg (by omega)]
    apply ih
    · intro f hf
      cases rest with
      | nil => simp at hf
      | cons g rest2 =>
        simp only [List.head?_cons, Option.some.injEq] at hf
        subst hf
        exact (List.chain'_cons.mp hchain).1.2
    · cases rest with
      | nil => exact List.chain'_nil
      | cons g rest2 => exact (List.chain'_cons.mp hchain).2

end Blob

/-- Claim C3 as amended: for every layout with in-range fields,
`decode (encode x)` returns `x` exactly when no extent row starts before
the previous row's end, and otherwise returns the error classifying the
first offending row: `Overlapping` when it extends past the previous
row's end, `NotSorted` otherwise (so an overlapping row contained within
its predecessor yields `NotSorted`); in particular the round-trip holds
for every valid layout (rows strictly ascending by offset and
non-overlapping), and every out-of-order or overlapping input built this
way is rejected. -/
theorem blob_codec_amended (x : Blob.BlobLayout)
    (htotal : x.total_bytes < Blob.U64)
    (hcount : x.extents.length < Blob.U64)
    (hids : ∀ e ∈ x.extents, e.extent_id.length = 32)
    (hends : ∀ e ∈ x.extents, e.offset + e.length < Blob.U64) :
    Blob.decode (Blob.encode x) =
      (match Blob.firstViolation 0 x.extents with
       | some err => Blob.DecodeOutcome.err err
       | none => Blob.DecodeOutcome.ok x) ∧
    (Blob.ValidLayout x → Blob.firstViolation 0 x.extents = none) := by
  constructor
  · have hbody : (x.extents.flatMap Blob.rowBytes).length = 48 * x.extents.length :=
      Blob.flatMap_rowBytes_length x.extents hids
    have henc : Blob.encode x = Blob.BLOB_VERSION :: Blob.EXTENT_ID_SIZE ::
        (leBytes 8 x.total_bytes ++ (leBytes 8 x.extents.length ++
          x.extents.flatMap Blob.rowBytes)) := rfl
    have hlen : (Blob.encode x).length = 18 + 48 * x.extents.length := by
      rw [henc]
      simp [List.length_append, Blob.leBytes_length, hbody]
      omega
    have hrest2 : (Blob.encode x).drop 2 =
        leBytes 8 x.total_bytes ++ (leBytes 8 x.extents.length ++
          x.extents.flatMap Blob.rowBytes) := by
      rw [henc]
      rfl
    have hdrop10 : (Blob.encode x).drop 10 =
        leBytes 8 x.extents.length ++ x.extents.flatMap Blob.rowBytes := by
      have h1 : (10 : Nat) = 2 + 8 := rfl
      rw [h1, ← List.drop_drop, hrest2, List.drop_left' (Blob.leBytes_length 8 _)]
    have hdrop18 : (Blob.encode x).drop 18 = x.extents.flatMap Blob.rowBytes := by
      have h1 : (18 : Nat) = 10 + 8 := rfl
      rw [h1, ← List.drop_drop, hdrop10, List.drop_left' (Blob.leBytes_length 8 _)]
    have htake8 : ((Blob.encode x).drop 2).take 8 = leBytes 8 x.total_bytes := by
      rw [hrest2]
      exact List.take_left' (Blob.leBytes_length 8 _)
    have htake8' : ((Blob.encode x).drop 10).take 8 = leBytes 8 x.extents.length := by
      rw [hdrop10]
      exact List.take_left' (Blob.leBytes_length 8 _)
    have hget0 : (Blob.encode x).getD 0 0 = Blob.BLOB_VERSION := by rw [henc]; rfl
    have hget1 : (Blob.encode x).getD 1 0 = Blob.EXTENT_ID_SIZE := by rw [henc]; rfl
    unfold Blob.decode
    rw [if_neg (by omega), hget0, hget1, if_neg (by simp [Blob.BLOB_VERSION]),
      if_neg (by simp [Blob.EXTENT_ID_SIZE]), htake8,
      Blob.readLEList_leBytes_eight htotal, htake8',
      Blob.readLEList_leBytes_eight hcount, hdrop18]
    rw [if_neg (by
      push_neg
      calc x.extents.length * 48 % Blob.U64 ≤ x.extents.length * 48 := Nat.mod_le _ _
        _ = 48 * x.extents.length := by ring
        _ = (x.extents.flatMap Blob.rowBytes).length := hbody.symm)]
    rw [Blob.decodeExtents_encodeRows x.total_bytes x.extents 0 [] hids hends]
    cases hfv : Blob.firstViolation 0 x.extents with
    | some err => simp
    | none => simp
  · intro hvalid
    exact Blob.firstViolation_none_of_chain x.extents 0 (fun f _ => Nat.zero_le _) hvalid

/-- Witness for `blob_codec_amended`: the valid two-extent layout from the
source's own round-trip test decodes back to itself. -/
theorem blob_codec_amended_witness :
    Blob.decode (Blob.encode ⟨1024,
        [⟨0, 256, List.replicate 32 1⟩, ⟨512, 256, List.replicate 32 2⟩]⟩) =
      Blob.DecodeOutcome.ok ⟨1024,
        [⟨0, 256, List.replicate 32 1⟩, ⟨512, 256, List.replicate 32 2⟩]⟩ := by
  have h := blob_codec_amended ⟨1024,
      [⟨0, 256, List.replicate 32 1⟩, ⟨512, 256, List.replicate 32 2⟩]⟩
    (by decide) (by decide) (by decide) (by decide)
  have hv : Blob.ValidLayout ⟨1024,
      [⟨0, 256, List.replicate 32 1⟩, ⟨512, 256, List.replicate 32 2⟩]⟩ :=
    List.chain'_cons.mpr ⟨⟨by norm_num, by norm_num⟩, List.chain'_singleton _⟩
  have h2 := h.2 hv
  rw [h.1, h2]

/-! ### Byte-lexicographic order lemmas -/

theorem lexLt_irrefl : ∀ a : List Nat, lexLt a a = false := by
  intro a
  induction a with
  | nil => rfl
  | cons x xs ih => simp [lexLt, ih]

theorem lexLt_asymm : ∀ a b : List Nat, lexLt a b = true → lexLt b a = false := by
  intro a
  induction a with
  | nil =>
    intro b h
    cases b with
    | nil => simp [lexLt] at h
    | cons y ys => rfl
  | cons x xs ih =>
    intro b h
    cases b with
    | nil => simp [lexLt] at h
    | cons y ys =>
      simp only [lexLt] at h ⊢
      by_cases h1 : x < y
      · have h2 : ¬ y < x := by omega
        simp [h1, h2]
      · by_cases h2 : y < x
        · simp [h1, h2] at h
        · simp only [h1, h2, if_false] at h ⊢
          exact ih ys h

theorem lexLt_trans : ∀ a b c : List Nat,
    lexLt a b = true → lexLt b c = true → lexLt a c = true := by
  intro a
  induction a with
  | nil =>
    intro b c hab hbc
    cases b with
    | nil => simp [lexLt] at hab
    | cons y ys =>
      cases c with
      | nil => simp [lexLt] at hbc
      | cons z zs => rfl
  | cons x xs ih =>
    intro b c hab hbc
    cases b with
    | nil => simp [lexLt] at hab
    | cons y ys =>
      cases c with
      | nil => simp [lexLt] at hbc
      | cons z zs =>
        simp only [lexLt] at hab hbc ⊢
        by_cases hxy : x < y
        · by_cases hyz : y < z
          · simp [show x < z by omega]
          · by_cases hzy : z < y
            · simp [hyz, hzy] at hbc
            · have h3 : y = z := by omega
              subst h3
              simp [hxy]
        · by_cases hyx : y < x
          · simp [hxy, hyx] at hab
          · have h3 : x = y := by omega
            subst h3
            simp only [lt_irrefl, if_false] at hab
            by_cases hxz : x < z
            · simp [hxz]
            · by_cases hzx : z < x
              · simp [hxz, hzx] at hbc
              · have h4 : x = z := by omega
                subst h4
                simp only [lt_irrefl, if_false] at hbc ⊢
                exact ih ys zs hab hbc

theorem lexLt_eq_of_not : ∀ a b : List Nat,
    lexLt a b = false → lexLt b a = false → a = b := by
  intro a
  induction a with
  | nil =>
    intro b h1 _
    cases b with
    | nil => rfl
    | cons y ys => simp [lexLt] at h1
  | cons x xs ih =>
    intro b h1 h2
    cases b with
    | nil => simp [lexLt] at h2
    | cons y ys =>
      simp only [lexLt] at h1 h2
      by_cases hxy : x < y
      · simp [hxy] at h1
      · by_cases hyx : y < x
        · simp [hyx, hxy] at h2
        · have h3 : x = y := by omega
          subst h3
          simp only [lt_irrefl, if_false] at h1 h2
          rw [ih ys h1 h2]

/-! ### Tree hasher lemmas -/

namespace Tree

theorem mapInsert_unfold (k v k1 v1 : Bytes) (rest : List (Bytes × Bytes)) :
    mapInsert k v ((k1, v1) :: rest) =
      if lexLt k k1 = true then (k, v) :: (k1, v1) :: rest
      else if lexLt k1 k = true then (k1, v1) :: mapInsert k v rest
      else (k1, v) :: rest := by
  simp [mapInsert]

theorem mapInsert_mem_key (k v : Bytes) :
    ∀ (m : List (Bytes × Bytes)) (r : Bytes × Bytes),
    r ∈ mapInsert k v m → r.1 = k ∨ r ∈ m := by
  intro m
  induction m with
  | nil =>
    intro r hr
    simp only [mapInsert, List.mem_singleton] at hr
    subst hr
    exact Or.inl rfl
  | cons p rest ih =>
    intro r hr
    obtain ⟨k1, v1⟩ := p
    rw [mapInsert_unfold] at hr
    cases h1 : lexLt k k1 with
    | true =>
      rw [if_pos h1] at hr
      rcases List.mem_cons.mp hr with h | h
      · subst h; exact Or.inl rfl
      · exact Or.inr h
    | false =>
      rw [if_neg (by simp [h1])] at hr
      cases h2 : lexLt k1 k with
      | true =>
        rw [if_pos h2] at hr
        rcases List.mem_cons.mp hr with h | h
        · exact Or.inr (List.mem_cons.mpr (Or.inl h))
        · rcases ih r h with h3 | h3
          · exact Or.inl h3
          · exact Or.inr (List.mem_cons.mpr (Or.inr h3))
      | false =>
        have hk : k1 = k := lexLt_eq_of_not k1 k h2 h1
        rw [if_neg (by simp [h2])] at hr
        rcases List.mem_cons.mp hr with h | h
        · subst h; exact Or.inl hk
        · exact Or.inr (List.mem_cons.mpr (Or.inr h))

theorem mapInsert_pairwise (k v : Bytes) :
    ∀ m : List (Bytes × Bytes), m.Pairwise entLt →
    (mapInsert k v m).Pairwise entLt := by
  intro m
  induction m with
  | nil =>
    intro _
    simp [mapInsert, List.pairwise_singleton]
  | cons p rest ih =>
    intro hm
    obtain ⟨k1, v1⟩ := p
    rw [List.pairwise_cons] at hm
    obtain ⟨hall, hrest⟩ := hm
    rw [mapInsert_unfold]
    cases h1 : lexLt k k1 with
    | true =>
      rw [if_pos rfl, List.pairwise_cons]
      refine ⟨?_, List.pairwise_cons.mpr ⟨hall, hrest⟩⟩
      intro r hr
      rcases List.mem_cons.mp hr with h | h
      · subst h
        exact h1
      · exact lexLt_trans k k1 r.1 h1 (hall r h)
    | false =>
      rw [if_neg (by simp)]
      cases h2 : lexLt k1 k with
      | true =>
        rw [if_pos rfl, List.pairwise_cons]
        refine ⟨?_, ih hrest⟩
        intro r hr
        rcases mapInsert_mem_key k v rest r hr with h | h
        · show lexLt k1 r.1 = true
          rw [h]
          exact h2
        · exact hall r h
      | false =>
        rw [if_neg (by simp), List.pairwise_cons]
        exact ⟨fun r hr => hall r hr, hrest⟩

theorem mapInsert_perm_of_fresh (k v : Bytes) :
    ∀ m : List (Bytes × Bytes), (∀ p ∈ m, p.1 ≠ k) →
    (mapInsert k v m).Perm ((k, v) :: m) := by
  intro m
  induction m with
  | nil =>
    intro _
    exact List.Perm.refl _
  | cons p rest ih =>
    intro hfresh
    obtain ⟨k1, v1⟩ := p
    rw [mapInsert_unfold]
    cases h1 : lexLt k k1 with
    | true =>
      rw [if_pos rfl]
    | false =>
      rw [if_neg (by simp)]
      cases h2 : lexLt k1 k with
      | true =>
        rw [if_pos rfl]
        have hr := ih (fun q hq => hfresh q (List.mem_cons.mpr (Or.inr hq)))
        exact (List.Perm.cons _ hr).trans (List.Perm.swap _ _ _)
      | false =>
        have hk : k1 = k := lexLt_eq_of_not k1 k h2 h1
        exact absurd hk (hfresh (k1, v1) (List.mem_cons.mpr (Or.inl rfl)))

theorem foldl_mapInsert_perm :
    ∀ (pairs : List (Bytes × Bytes)) (m : List (Bytes × Bytes)),
    pairs.Pairwise (fun a b => a.1 ≠ b.1) →
    (∀ p ∈ pairs, ∀ q ∈ m, p.1 ≠ q.1) →
    (pairs.foldl (fun acc p => mapInsert p.1 p.2 acc) m).Perm (pairs ++ m) := by
  intro pairs
  induction pairs with
  | nil =>
    intro m _ _
    simp
  | cons p ps ih =>
    intro m hdist hfresh
    rw [List.pairwise_cons] at hdist
    obtain ⟨hphead, hptail⟩ := hdist
    simp only [List.foldl_cons]
    have hmem : ∀ q ∈ ps, ∀ r ∈ mapInsert p.1 p.2 m, q.1 ≠ r.1 := by
      intro q hq r hr
      rcases mapInsert_mem_key p.1 p.2 m r hr with h | h
      · rw [h]
        exact (hphead q hq).symm
      · exact hfresh q (by simp [hq]) r h
    have hstep := ih (mapInsert p.1 p.2 m) hptail hmem
    have hins : (mapInsert p.1 p.2 m).Perm ((p.1, p.2) :: m) :=
      mapInsert_perm_of_fresh p.1 p.2 m
        (fun q hq => fun hc => hfresh p (by simp) q hq hc.symm)
    exact hstep.trans ((List.Perm.append_left ps hins).trans List.perm_middle)

theorem foldl_mapInsert_pairwise :
    ∀ (pairs : List (Bytes × Bytes)) (m : List (Bytes × Bytes)),
    m.Pairwise entLt →
    (pairs.foldl (fun acc p => mapInsert p.1 p.2 acc) m).Pairwise entLt := by
  intro pairs
  induction pairs with
  | nil =>
    intro m hm
    simpa using hm
  | cons p ps ih =>
    intro m hm
    simp only [List.foldl_cons]
    exact ih (mapInsert p.1 p.2 m) (mapInsert_pairwise p.1 p.2 m hm)

theorem tree_entries_eq_foldl :
    ∀ (files : List FileInfo) (m : List (Bytes × Bytes)),
    files.foldl
        (fun acc f =>
          match f.blob with
          | some b => mapInsert f.relative_path b acc
          | none => acc)
        m =
      (blobPairs files).foldl (fun acc p => mapInsert p.1 p.2 acc) m := by
  intro files
  induction files with
  | nil =>
    intro m
    simp [blobPairs]
  | cons f fs ih =>
    intro m
    cases hb : f.blob with
    | none =>
      simp only [List.foldl_cons, hb, blobPairs, List.filterMap_cons, Option.map_none]
      exact ih m
    | some b =>
      simp only [List.foldl_cons, hb, blobPairs, List.filterMap_cons, Option.map_some]
      exact ih (mapInsert f.relative_path b m)

theorem pathLe_total : ∀ a b : Bytes × Bytes, pathLe a b ∨ pathLe b a := by
  intro a b
  unfold pathLe
  cases h : lexLt b.1 a.1 with
  | false => exact Or.inl rfl
  | true => exact Or.inr (lexLt_asymm b.1 a.1 h)

theorem pathLe_trans : ∀ a b c : Bytes × Bytes,
    pathLe a b → pathLe b c → pathLe a c := by
  intro a b c hab hbc
  unfold pathLe at *
  cases hca : lexLt c.1 a.1 with
  | false => rfl
  | true =>
    exfalso
    cases hbc2 : lexLt b.1 c.1 with
    | true =>
      have h1 : lexLt b.1 a.1 = true := lexLt_trans b.1 c.1 a.1 hbc2 hca
      rw [hab] at h1
      exact Bool.false_ne_true h1
    | false =>
      have h2 : b.1 = c.1 := lexLt_eq_of_not b.1 c.1 hbc2 hbc
      rw [← h2] at hca
      rw [hab] at hca
      exact Bool.false_ne_true hca

theorem entLt_of_pathLe_ne {a b : Bytes × Bytes} (hle : pathLe a b) (hne : a.1 ≠ b.1) :
    entLt a b := by
  unfold pathLe at hle
  unfold entLt
  cases h : lexLt a.1 b.1 with
  | true => rfl
  | false => exact absurd (lexLt_eq_of_not a.1 b.1 h hle) hne

theorem insertionSort_pairwise_entLt (pairs : List (Bytes × Bytes))
    (hdist : pairs.Pairwise (fun a b => a.1 ≠ b.1)) :
    (List.insertionSort pathLe pairs).Pairwise entLt := by
  haveI htot : IsTotal (Bytes × Bytes) pathLe := ⟨pathLe_total⟩
  haveI htr : IsTrans (Bytes × Bytes) pathLe := ⟨pathLe_trans⟩
  have hsorted : (List.insertionSort pathLe pairs).Pairwise pathLe :=
    List.sorted_insertionSort pathLe pairs
  have hdist2 : (List.insertionSort pathLe pairs).Pairwise (fun a b => a.1 ≠ b.1) :=
    ((List.perm_insertionSort pathLe pairs).pairwise_iff (fun h => Ne.symm h)).mpr hdist
  exact (hsorted.and hdist2).imp (fun h => entLt_of_pathLe_ne h.1 h.2)

theorem tree_entries_canonical (files : List FileInfo)
    (hdist : (blobPairs files).Pairwise (fun a b => a.1 ≠ b.1)) :
    tree_entries files = List.insertionSort pathLe (blobPairs files) := by
  haveI : IsAntisymm (Bytes × Bytes) entLt :=
    ⟨fun a b h1 h2 =>
      absurd (((h2 : lexLt b.1 a.1 = true)).symm.trans (lexLt_asymm a.1 b.1 h1))
        (by simp)⟩
  have hfold : tree_entries files =
      (blobPairs files).foldl (fun acc p => mapInsert p.1 p.2 acc) [] :=
    tree_entries_eq_foldl files []
  have hperm1 : (tree_entries files).Perm (blobPairs files) := by
    rw [hfold]
    have h := foldl_mapInsert_perm (blobPairs files) [] hdist
      (fun p _ q hq => absurd hq (List.not_mem_nil q))
    simpa using h
  have hsor1 : (tree_entries files).Pairwise entLt := by
    rw [hfold]
    exact foldl_mapInsert_pairwise (blobPairs files) [] List.Pairwise.nil
  have hperm : (tree_entries files).Perm (List.insertionSort pathLe (blobPairs files)) :=
    hperm1.trans (List.perm_insertionSort pathLe (blobPairs files)).symm
  exact List.eq_of_perm_of_sorted hperm hsor1
    (insertionSort_pairwise_entLt (blobPairs files) hdist)

end Tree

/-- Claim C8 as amended: for every list of `FileInfo` whose blob-bearing
files have pairwise distinct relative paths, the tree hash equals the
specification hash (files with a blob, ordered by byte-lexicographic
path, each fed as u32-LE path length, path bytes, blob id), and the tree
hash is invariant under permutation of the input list.  (For lists with
duplicate paths the `BTreeMap` keeps only the last inserted entry, so
neither property holds in general.) -/
theorem tree_hash_amended (H : Bytes → Bytes) (files : List Tree.FileInfo)
    (hdist : (Tree.blobPairs files).Pairwise (fun a b => a.1 ≠ b.1)) :
    Tree.compute_tree_hash H files = Tree.spec_tree_hash H files ∧
    ∀ files2, files2.Perm files →
      Tree.compute_tree_hash H files2 = Tree.compute_tree_hash H files := by
  constructor
  · unfold Tree.compute_tree_hash Tree.spec_tree_hash
    rw [Tree.tree_entries_canonical files hdist]
  · intro files2 hp
    have hpp : (Tree.blobPairs files2).Perm (Tree.blobPairs files) := hp.filterMap _
    have hdist2 : (Tree.blobPairs files2).Pairwise (fun a b => a.1 ≠ b.1) :=
      (hpp.pairwise_iff (fun h => Ne.symm h)).mpr hdist
    haveI : IsAntisymm (Bytes × Bytes) Tree.entLt :=
      ⟨fun a b h1 h2 =>
      absurd (((h2 : lexLt b.1 a.1 = true)).symm.trans (lexLt_asymm a.1 b.1 h1))
        (by simp)⟩
    have hsorteq : List.insertionSort Tree.pathLe (Tree.blobPairs files2) =
        List.insertionSort Tree.pathLe (Tree.blobPairs files) := by
      have hperm : (List.insertionSort Tree.pathLe (Tree.blobPairs files2)).Perm
          (List.insertionSort Tree.pathLe (Tree.blobPairs files)) :=
        ((List.perm_insertionSort _ _).trans hpp).trans
          (List.perm_insertionSort _ _).symm
      exact List.eq_of_perm_of_sorted hperm
        (Tree.insertionSort_pairwise_entLt _ hdist2)
        (Tree.insertionSort_pairwise_entLt _ hdist)
    unfold Tree.compute_tree_hash
    rw [Tree.tree_entries_canonical files2 hdist2, Tree.tree_entries_canonical files hdist,
      hsorteq]

/-- Witness for `tree_hash_amended`: two files with distinct paths, and the
swapped list as the permuted input. -/
theorem tree_hash_amended_witness :
    Tree.compute_tree_hash (fun l => l) [⟨[97], some [1]⟩, ⟨[98], some [2]⟩] =
      Tree.spec_tree_hash (fun l => l) [⟨[97], some [1]⟩, ⟨[98], some [2]⟩] ∧
    Tree.compute_tree_hash (fun l => l) [⟨[98], some [2]⟩, ⟨[97], some [1]⟩] =
      Tree.compute_tree_hash (fun l => l) [⟨[97], some [1]⟩, ⟨[98], some [2]⟩] := by
  have h := tree_hash_amended (fun l => l) [⟨[97], some [1]⟩, ⟨[98], some [2]⟩]
    (by decide)
  exact ⟨h.1, h.2 [⟨[98], some [2]⟩, ⟨[97], some [1]⟩] (by decide)⟩

end Spec2Proof
